import Mathlib

/-!
Verification of the riffle anonymous file-sharing client
(`src/client/client.go`, package `client`).

The client is embedded shallowly: bytes are `Nat` values below 256 (only
XOR and bit operations are used, which never leave that range), byte
buffers are `List Nat`, and the mutable `Client` record becomes an
explicit state threaded through the per-round operations.  RPC traffic
is modelled by returning the wire messages the client builds; server
replies are parameters.  Primitives that live in the out-of-tree
`afs/lib` package (`Xors`, `Xor`, `SetBit`, the stream cipher, the
public-key operations) are either modelled from the spec (the byte-level
ones, marked in their doc comments) or kept as abstract function
parameters (the cryptographic ones), since `client.go` only composes
them.
-/

set_option linter.unusedVariables false

namespace Riffle

/-- XOR of two byte buffers, pointwise.  `afs/lib`'s `Xor(a, b)` stores the
result in its destination buffer; the spec's Download description (§4.F)
shows the destination is the accumulating buffer, so the functional
reading is simply the pointwise XOR. -/
def xorBytes (a b : List Nat) : List Nat := List.zipWith Nat.xor a b

/-- Modelled from the spec: `Xors([a0,…,ak])` from `afs/lib` (not under
`src/`) returns the XOR of all inputs.  All inputs the client passes have
the serialization size `S`, so the fold starts from the all-zero `S`-byte
buffer. -/
def xors (S : Nat) (l : List (List Nat)) : List Nat :=
  l.foldr xorBytes (List.replicate S 0)

/-- Modelled from the spec: `SetBit(i, v, buf)` from `afs/lib` (not under
`src/`) sets bit `i` of `buf` to `v`, byte index `i/8`, MSB-first within
the byte. -/
def setBit (i : Nat) (v : Bool) (buf : List Nat) : List Nat :=
  let byte := buf.getD (i / 8) 0
  if v then buf.set (i / 8) (byte ||| 2 ^ (7 - i % 8))
  else buf.set (i / 8) (byte &&& (255 - 2 ^ (7 - i % 8)))

/-- Bit `i` of a byte buffer, MSB-first within each byte (the reading
under which `setBit` sets bit `i`). -/
def bitGet (buf : List Nat) (i : Nat) : Bool :=
  (buf.getD (i / 8) 0).testBit (7 - i % 8)

/-- The mutable per-client state of `Client` that the per-round
operations read and write.  RPC handles, file descriptors and the crypto
suite are not data; the file table is passed to `Upload` explicitly. -/
structure Client where
  id : Int
  totalClients : Nat
  myServer : Nat
  reqRound : Nat
  reqHashRound : Nat
  upRound : Nat
  downRound : Nat
  masks : List (List Nat)
  secrets : List (List Nat)
  dhashes : List (List Nat)
deriving DecidableEq, Repr

/-- Wire type `Request` (afs/lib): the length-M hash vector and the
wire-reduced round. -/
structure Request where
  Hash : List (List Nat)
  Round : Nat
deriving DecidableEq, Repr

/-- Wire type `ClientRequest`: a `Request` plus the client id. -/
structure ClientRequest where
  Request : Request
  Id : Int
deriving DecidableEq, Repr

/-- Wire type `RequestArg` used by `Server.GetReqHashes` and
`Server.GetUpHashes`. -/
structure RequestArg where
  Id : Int
  Round : Nat
deriving DecidableEq, Repr

/-- Wire type `ClientMask` used by `Server.GetResponse`. -/
structure ClientMask where
  Mask : List Nat
  Id : Int
  Round : Nat
deriving DecidableEq, Repr

/-- Observable steps of `RequestBlock`, in program order: the enqueue
into the `dhashes` channel and the `Server.RequestBlock` RPC. -/
inductive REv where
  | enq (h : List Nat)
  | rpc (m : ClientRequest)
deriving DecidableEq, Repr

/-- Method `Client.RequestBlock(slot, hash)`.  Builds the length-`totalClients`
vector carrying `hash` at index `slot` and `len(hash)` zero bytes
elsewhere, enqueues `hash` into the `dhashes` channel, sends the RPC and
increments `reqRound`.  The buffered channel has capacity `MaxRounds`;
a full channel blocks the send, modelled by `none`.  The `some` branch
is the run in which the RPC succeeds (a failed RPC kills the process). -/
def RequestBlock (maxRounds : Nat) (c : Client) (slot : Int) (hash : List Nat) :
    Option (List REv × Client) :=
  if c.dhashes.length < maxRounds then
    let round := c.reqRound % maxRounds
    let reqs := (List.range c.totalClients).map
      (fun (i : Nat) => if (i : Int) = slot then hash else List.replicate hash.length 0)
    let cr : ClientRequest := ⟨⟨reqs, round⟩, c.id⟩
    some ([REv.enq hash, REv.rpc cr],
      { c with dhashes := c.dhashes ++ [hash], reqRound := c.reqRound + 1 })
  else none

/-- Method `Client.DownloadReqHash()`: the `Server.GetReqHashes` request it
sends (note the round is the raw counter) and the state after
incrementing `reqHashRound`.  The server's reply is consumed by the
caller `Upload`. -/
def DownloadReqHash (c : Client) : RequestArg × Client :=
  (⟨c.id, c.reqHashRound⟩, { c with reqHashRound := c.reqHashRound + 1 })

/-- Lookup in a file's (content-hash → byte offset) table.  Go uses a
map; the table is its association list with distinct keys. -/
def lookupTable (table : List (List Nat × Int)) (h : List Nat) : Option Int :=
  (table.find? (fun e => e.1 == h)).map (fun e => e.2)

/-- The inner loop of `Upload`'s match step over one file: for each
requested hash, if the table contains it, overwrite `offset` (there is
no break, so the last hit survives); `offset` starts at -1. -/
def innerScan (table : List (List Nat × Int)) (hashes : List (List Nat)) : Int :=
  hashes.foldl
    (fun acc h =>
      match lookupTable table h with
      | some o => o
      | none => acc) (-1)

/-- The outer loop of `Upload`'s match step over the file set: the first
file for which `innerScan` left an offset other than -1 wins. -/
def matchScan (files : List (String × List (List Nat × Int)))
    (hashes : List (List Nat)) : Option (String × Int) :=
  match files with
  | [] => none
  | (n, t) :: rest =>
    if innerScan t hashes ≠ -1 then some (n, innerScan t hashes)
    else matchScan rest hashes

/-- Wire type `Block`: the body handed to `UploadBlock` and its round
(the raw `upRound` counter). -/
structure Block where
  Block : List Nat
  Round : Nat
deriving DecidableEq, Repr

/-- Method `Client.Upload()`: fetch the requested hashes (via
`DownloadReqHash`; the reply `reqHashes` is a parameter), match them
against the local files, read the matching block (`readAt`, modelling
`os.File.ReadAt` of `BlockSize` bytes) or use `BlockSize` zero bytes,
and hand the block with round `upRound` to `UploadBlock`; then increment
`upRound`.  Returned: the `GetReqHashes` request, the block passed to
`UploadBlock`, and the post state. -/
def Upload (files : List (String × List (List Nat × Int)))
    (readAt : String → Int → List Nat) (blockSize : Nat)
    (c : Client) (reqHashes : List (List Nat)) : RequestArg × Block × Client :=
  let p := DownloadReqHash c
  let body :=
    match matchScan files reqHashes with
    | some (n, o) => readAt n o
    | none => List.replicate blockSize 0
  (p.1, ⟨body, p.2.upRound⟩, { p.2 with upRound := p.2.upRound + 1 })

/-- Wire type `UpBlock`: the encrypted upload submission. -/
structure UpBlock where
  HC1 : List (List Nat)
  HC2 : List (List Nat)
  DH1 : List Nat
  DH2 : List Nat
  BC : List Nat
  Round : Nat
deriving DecidableEq, Repr

section UploadCrypto

variable {Point Scalar : Type}

/-- Method `Client.UploadBlock(block)`.  The group, hash and cipher primitives
live in `afs/lib` and the dedis crypto library, so they are abstract
parameters: `pmul p s` is the scalar multiplication `p · s`,
`MarshalPoint` serializes a point, `Encrypt` is the multi-recipient
encryption `Encrypt(g, msg, pks)`, `EncryptPoint pt pk` is
`EncryptPoint(g, pt, pk)`, and `CounterAES key buf` the stream cipher.
`secret` stands for the scalar picked from the client's randomness. -/
def UploadBlock (basePoint : Point) (pmul : Point → Scalar → Point)
    (MarshalPoint : Point → List Nat) (Hash : List Nat → List Nat)
    (Encrypt : List Nat → List Point → List Point × List Point)
    (EncryptPoint : Point → Point → Point × Point)
    (CounterAES : List Nat → List Nat → List Nat)
    (nServers : Nat) (ephKeys : Nat → Point) (pks : Nat → Point)
    (secret : Scalar) (block : Block) : UpBlock :=
  let hash := Hash block.Block
  let hcs := Encrypt hash ((List.range nServers).map pks)
  let publicPt := pmul basePoint secret
  let bs := (List.range nServers).foldl
    (fun b i => CounterAES (MarshalPoint (pmul (ephKeys i) secret)) b) block.Block
  let dh := EncryptPoint publicPt (pks 0)
  { HC1 := hcs.1.map MarshalPoint,
    HC2 := hcs.2.map MarshalPoint,
    DH1 := MarshalPoint dh.1,
    DH2 := MarshalPoint dh.2,
    BC := bs,
    Round := block.Round }

/-- The onion layers of the upload body the spec describes: layer 0 is
the plaintext, layer `i+1` applies `CounterAES` keyed by the serialized
`eph_i · secret` to layer `i`. -/
def onionLayers (pmul : Point → Scalar → Point)
    (MarshalPoint : Point → List Nat) (CounterAES : List Nat → List Nat → List Nat)
    (ephKeys : Nat → Point) (secret : Scalar) (body : List Nat) : Nat → List Nat
  | 0 => body
  | n + 1 =>
    CounterAES (MarshalPoint (pmul (ephKeys n) secret))
      (onionLayers pmul MarshalPoint CounterAES ephKeys secret body n)

end UploadCrypto

/-- The first index of `hashes` whose entry agrees with `hash` on the
positions `0 .. len(hash)-1` — the comparison loop of `DownloadBlock`
(`hash[j] == hashes[i][j]` for `j` ranging over `hash` only). -/
def hashEqAt (hash entry : List Nat) : Bool :=
  (List.range hash.length).all (fun j => hash.getD j 0 == entry.getD j 0)

/-- The locate loop of `DownloadBlock`: the first (smallest) index whose
entry matches under `hashEqAt`. -/
def findSlot (hash : List Nat) : List (List Nat) → Option Nat
  | [] => none
  | e :: rest =>
    if hashEqAt hash e then some 0
    else (findSlot hash rest).map (fun n => n + 1)

/-- The secret-chain advance at the end of `DownloadSlot`: each chain
entry is used to key the stream cipher and is overwritten with the next
`len` keystream bytes (`Suite.Cipher(chain[i]).Read(chain[i])`).
`cipherRead seed len` stands for the first `len` bytes of the keystream
of the suite's cipher keyed by `seed`. -/
def advanceChain (cipherRead : List Nat → Nat → List Nat)
    (chains : List (List Nat)) : List (List Nat) :=
  chains.map (fun s => cipherRead s s.length)

/-- Result of `DownloadSlot`: the `ClientMask` sent to the home server,
the returned (decrypted) block, and the post state. -/
structure SlotOut where
  sent : ClientMask
  block : List Nat
  post : Client
deriving DecidableEq, Repr

/-- Method `Client.DownloadSlot(slot)`: build the one-hot `finalMask`, fold the
home mask and `finalMask` into the XOR of all masks, send the
`ClientMask` (raw `downRound`), XOR the reply with the XOR of all
secrets, and advance both secret chains.  `response` is the server's
reply to `Server.GetResponse`. -/
def DownloadSlot (cipherRead : List Nat → Nat → List Nat) (S : Nat)
    (c : Client) (slot : Nat) (response : List Nat) : SlotOut :=
  let finalMask := setBit slot true (List.replicate S 0)
  let mask0 := xors S c.masks
  let mask1 := xorBytes mask0 (c.masks.getD c.myServer [])
  let mask2 := xorBytes mask1 finalMask
  let secretsXor := xors S c.secrets
  let out := xorBytes response secretsXor
  { sent := ⟨mask2, c.id, c.downRound⟩,
    block := out,
    post := { c with
      secrets := advanceChain cipherRead c.secrets,
      masks := advanceChain cipherRead c.masks } }

/-- Result of `DownloadBlock`: the `GetUpHashes` request, the
`ClientMask` sent to `GetResponse` when a slot was found, the returned
block, and the post state. -/
structure DlOut where
  args : RequestArg
  sent : Option ClientMask
  block : List Nat
  post : Client
deriving DecidableEq, Repr

/-- Method `Client.DownloadBlock(hash)`: fetch the uploaded hashes for raw
round `downRound` (`uphashes` is the server's reply), locate the first
matching slot and retrieve it, or return zero-length bytes — without
touching the chains. -/
def DownloadBlock (cipherRead : List Nat → Nat → List Nat) (S : Nat)
    (c : Client) (uphashes : List (List Nat)) (hash : List Nat)
    (response : List Nat) : DlOut :=
  let args : RequestArg := ⟨c.id, c.downRound⟩
  match findSlot hash uphashes with
  | some slot =>
    let so := DownloadSlot cipherRead S c slot response
    ⟨args, some so.sent, so.block, so.post⟩
  | none => ⟨args, none, [], c⟩

/-- Result of `Download`: the hash dequeued from the FIFO, the block
returned to the caller, and the post state. -/
structure DownOut where
  hash : List Nat
  block : List Nat
  post : Client
deriving DecidableEq, Repr

/-- Method `Client.Download()`: blocking dequeue of the next requested hash
(`none` when the FIFO is empty and the receive blocks), `DownloadBlock`,
then increment `downRound`. -/
def Download (cipherRead : List Nat → Nat → List Nat) (S : Nat)
    (c : Client) (uphashes : List (List Nat)) (response : List Nat) :
    Option DownOut :=
  match c.dhashes with
  | [] => none
  | hash :: rest =>
    let dl := DownloadBlock cipherRead S { c with dhashes := rest } uphashes hash response
    some ⟨hash, dl.block, { dl.post with downRound := dl.post.downRound + 1 }⟩

/-- Iterated `RequestBlock` over a list of hashes (same slot each time),
failing if any enqueue would block. -/
def runRequests (maxRounds : Nat) (slot : Int) :
    Client → List (List Nat) → Option Client
  | c, [] => some c
  | c, h :: hs =>
    match RequestBlock maxRounds c slot h with
    | some (_, c2) => runRequests maxRounds slot c2 hs
    | none => none

/-- Iterated `Download`; `ups r` and `resps r` are the server's replies
in the round with `downRound = r`.  Returns the dequeued hashes in
order. -/
def runDownloads (cipherRead : List Nat → Nat → List Nat) (S : Nat)
    (ups : Nat → List (List Nat)) (resps : Nat → List Nat) :
    Nat → Client → Option (List (List Nat) × Client)
  | 0, c => some ([], c)
  | k + 1, c =>
    match Download cipherRead S c (ups c.downRound) (resps c.downRound) with
    | none => none
    | some o =>
      match runDownloads cipherRead S ups resps k o.post with
      | none => none
      | some (hs, c2) => some (o.hash :: hs, c2)

/-! ### Helper lemmas on byte buffers -/

theorem getD_eq_getElem {α : Type} (l : List α) (d : α) (j : Nat) (hj : j < l.length) :
    l.getD j d = l[j] := by
  simp [List.getD_eq_getElem?_getD, List.getElem?_eq_getElem hj]

theorem getD_range_map {α : Type} (f : Nat → α) (n j : Nat) (d : α) (hj : j < n) :
    ((List.range n).map f).getD j d = f j := by
  rw [getD_eq_getElem _ _ _ (by simpa using hj)]
  simp

theorem getD_map_lt {α β : Type} (f : α → β) (l : List α) (k : Nat) (d : β)
    (hk : k < l.length) :
    (l.map f).getD k d = f l[k] := by
  rw [getD_eq_getElem _ _ _ (by simpa using hk)]
  simp

theorem length_xorBytes (a b : List Nat) :
    (xorBytes a b).length = min a.length b.length :=
  List.length_zipWith ..

theorem getD_xorBytes (a b : List Nat) (i : Nat) (h1 : i < a.length) (h2 : i < b.length) :
    (xorBytes a b).getD i 0 = Nat.xor (a.getD i 0) (b.getD i 0) := by
  have hm : i < (xorBytes a b).length := by rw [length_xorBytes]; omega
  rw [getD_eq_getElem _ _ _ hm, getD_eq_getElem _ _ _ h1, getD_eq_getElem _ _ _ h2]
  exact List.getElem_zipWith ..

theorem xors_nil (S : Nat) : xors S [] = List.replicate S 0 := rfl

theorem xors_cons (S : Nat) (a : List Nat) (t : List (List Nat)) :
    xors S (a :: t) = xorBytes a (xors S t) := rfl

theorem length_xors (S : Nat) (l : List (List Nat)) (h : ∀ x ∈ l, x.length = S) :
    (xors S l).length = S := by
  induction l with
  | nil => simp [xors_nil]
  | cons a t ih =>
    have ha : a.length = S := h a (by simp)
    have ht := ih (fun x hx => h x (by simp [hx]))
    rw [xors_cons, length_xorBytes, ha, ht, Nat.min_self]

theorem getD_xors (S : Nat) (l : List (List Nat)) (h : ∀ x ∈ l, x.length = S)
    (i : Nat) (hi : i < S) :
    (xors S l).getD i 0 = (l.map (fun x => x.getD i 0)).foldr Nat.xor 0 := by
  induction l with
  | nil =>
    rw [xors_nil, getD_eq_getElem _ _ _ (by simpa using hi)]
    simp
  | cons a t ih =>
    have ha : a.length = S := h a (by simp)
    have ht : ∀ x ∈ t, x.length = S := fun x hx => h x (by simp [hx])
    rw [xors_cons, getD_xorBytes a (xors S t) i (by omega) (by rw [length_xors S t ht]; omega),
      ih ht]
    simp

theorem xor_def (a b : Nat) : Nat.xor a b = a ^^^ b := rfl

theorem foldr_xor_eraseIdx (l : List Nat) (k : Nat) (hk : k < l.length) :
    l.foldr Nat.xor 0 = Nat.xor (l.getD k 0) ((l.eraseIdx k).foldr Nat.xor 0) := by
  induction l generalizing k with
  | nil => simp at hk
  | cons a t ih =>
    cases k with
    | zero => simp [List.eraseIdx]
    | succ k =>
      have hk2 : k < t.length := by simpa using hk
      simp only [List.foldr_cons, List.eraseIdx, List.getD_cons_succ]
      rw [ih k hk2]
      simp only [xor_def]
      rw [← Nat.xor_assoc, Nat.xor_comm a, Nat.xor_assoc]

theorem eraseIdx_map_comm {α β : Type} (f : α → β) :
    ∀ (l : List α) (k : Nat), (l.eraseIdx k).map f = (l.map f).eraseIdx k
  | [], _ => rfl
  | _ :: _, 0 => rfl
  | a :: t, k + 1 => by
    simp only [List.eraseIdx, List.map_cons]
    rw [eraseIdx_map_comm f t k]

theorem xor_cancel_quad (b x f : Nat) :
    Nat.xor (Nat.xor (Nat.xor (Nat.xor (Nat.xor b x) b) f) x) f = 0 := by
  simp only [xor_def]
  have h1 : (b ^^^ x) ^^^ b = x := by
    rw [Nat.xor_comm b x, Nat.xor_assoc, Nat.xor_self, Nat.xor_zero]
  have h2 : (x ^^^ f) ^^^ x = f := by
    rw [Nat.xor_comm x f, Nat.xor_assoc, Nat.xor_self, Nat.xor_zero]
  rw [h1, h2, Nat.xor_self]

theorem length_setBit (i : Nat) (v : Bool) (buf : List Nat) :
    (setBit i v buf).length = buf.length := by
  cases v <;> simp [setBit]

theorem bitGet_oneHot (S slot : Nat) (hslot : slot < 8 * S) (j : Nat) (hj : j < 8 * S) :
    (bitGet (setBit slot true (List.replicate S 0)) j = true ↔ j = slot) := by
  have hsb : slot / 8 < S := by omega
  have hjb : j / 8 < S := by omega
  have hbyte0 : (List.replicate S (0 : Nat)).getD (slot / 8) 0 = 0 := by
    rw [getD_eq_getElem _ _ _ (by simpa using hsb)]
    simp
  have hset : setBit slot true (List.replicate S 0) =
      (List.replicate S (0 : Nat)).set (slot / 8) (2 ^ (7 - slot % 8)) := by
    simp [setBit, hbyte0]
  have hval : (bitGet (setBit slot true (List.replicate S 0)) j) =
      Nat.testBit (if slot / 8 = j / 8 then 2 ^ (7 - slot % 8) else 0) (7 - j % 8) := by
    rw [bitGet, hset, getD_eq_getElem _ _ _ (by simpa using hjb)]
    rw [List.getElem_set]
    by_cases hdiv : slot / 8 = j / 8
    · rw [if_pos hdiv, if_pos hdiv]
    · rw [if_neg hdiv, if_neg hdiv]
      simp
  rw [hval]
  by_cases hdiv : slot / 8 = j / 8
  · rw [if_pos hdiv]
    by_cases hmod : slot % 8 = j % 8
    · have hbit : 7 - slot % 8 = 7 - j % 8 := by omega
      rw [hbit]
      simp only [Nat.testBit_two_pow_self, true_iff]
      omega
    · have hbit : 7 - slot % 8 ≠ 7 - j % 8 := by omega
      rw [Nat.testBit_two_pow_of_ne hbit]
      simp only [Bool.false_eq_true, false_iff]
      omega
  · rw [if_neg hdiv, Nat.zero_testBit]
    simp only [Bool.false_eq_true, false_iff]
    omega

theorem mask_algebra (S : Nat) (M : List (List Nat)) (my : Nat) (F : List Nat)
    (hmask : ∀ mk ∈ M, mk.length = S) (hmy : my < M.length) (hF : F.length = S) :
    xorBytes (xorBytes (xorBytes (xorBytes (xors S M) (M.getD my [])) F)
        (xors S (M.eraseIdx my))) F = List.replicate S 0 := by
  have hB : (M.getD my []).length = S := by
    rw [getD_eq_getElem _ _ _ hmy]
    exact hmask _ (List.getElem_mem hmy)
  have hA : (xors S M).length = S := length_xors S M hmask
  have hXmem : ∀ x ∈ M.eraseIdx my, x.length = S :=
    fun x hx => hmask x (List.mem_of_mem_eraseIdx hx)
  have hX : (xors S (M.eraseIdx my)).length = S := length_xors S _ hXmem
  have h1 : (xorBytes (xors S M) (M.getD my [])).length = S := by
    rw [length_xorBytes, hA, hB, Nat.min_self]
  have h2 : (xorBytes (xorBytes (xors S M) (M.getD my [])) F).length = S := by
    rw [length_xorBytes, h1, hF, Nat.min_self]
  have h3 : (xorBytes (xorBytes (xorBytes (xors S M) (M.getD my [])) F)
      (xors S (M.eraseIdx my))).length = S := by
    rw [length_xorBytes, h2, hX, Nat.min_self]
  have h4 : (xorBytes (xorBytes (xorBytes (xorBytes (xors S M) (M.getD my [])) F)
      (xors S (M.eraseIdx my))) F).length = S := by
    rw [length_xorBytes, h3, hF, Nat.min_self]
  apply List.ext_getElem
  · rw [h4, List.length_replicate]
  intro i hi hr
  have hiS : i < S := by rw [h4] at hi; exact hi
  have hrep : (List.replicate S (0 : Nat))[i] = 0 := List.getElem_replicate ..
  rw [hrep, ← getD_eq_getElem _ 0 _ hi]
  rw [getD_xorBytes _ _ _ (by omega) (by omega),
    getD_xorBytes _ _ _ (by omega) (by omega),
    getD_xorBytes _ _ _ (by omega) (by omega),
    getD_xorBytes _ _ _ (by omega) (by omega)]
  have hAi : (xors S M).getD i 0 =
      Nat.xor ((M.getD my []).getD i 0) ((xors S (M.eraseIdx my)).getD i 0) := by
    rw [getD_xors S M hmask i hiS, getD_xors S _ hXmem i hiS]
    rw [eraseIdx_map_comm (fun x => x.getD i 0) M my]
    rw [foldr_xor_eraseIdx (M.map (fun x => x.getD i 0)) my (by simpa using hmy)]
    rw [getD_map_lt _ _ _ _ hmy, getD_eq_getElem _ _ _ hmy]
  rw [hAi]
  exact xor_cancel_quad ..

/-! ### Concrete sample data for counterexamples and witnesses -/

/-- A concrete stand-in for the suite's keystream: every keystream byte
is 1, so a chain advance is visible (it changes an all-zero chain). -/
def cexCipher : List Nat → Nat → List Nat := fun _ n => List.replicate n 1

/-- A small concrete client state: one server (the home server), one
other client, both chains all-zero of size `S = 1`, one pending
download hash. -/
def cexClient : Client :=
  { id := 0, totalClients := 1, myServer := 0, reqRound := 0, reqHashRound := 0,
    upRound := 0, downRound := 0, masks := [[0]], secrets := [[0]], dhashes := [[2]] }

/-- A client state with two clients and an empty download FIFO. -/
def c3c : Client := { cexClient with totalClients := 2, dhashes := [] }

/-- A client state with two servers, chains of size `S = 1`. -/
def c7c : Client := { cexClient with masks := [[3], [5]], secrets := [[6], [7]] }

/-! ### C1 -/

/-- C1: when `GetUpHashes` returns no slot matching the requested hash,
`Download` does return zero-length bytes and still advances `downRound`
— but it does NOT advance the secret chains, because the advance lives
in `DownloadSlot`, which the early return in `DownloadBlock` skips.  At
the concrete failing input (reply `[[1]]`, requested hash `[2]`) the
block is empty and `downRound` becomes 1, yet `masks` and `secrets`
stay `[[0]]` although an advance would have produced `[[1]]`.  This
contradicts the claim (and the spec's stated intent); the spec itself
flags the early return as a likely bug. -/
theorem c1_missing_hash_freezes_chains :
    (Download cexCipher 1 cexClient [[1]] [5]).map
        (fun o => (o.block, o.post.downRound, o.post.masks, o.post.secrets)) =
      some ([], 1, [[0]], [[0]]) ∧
    advanceChain cexCipher cexClient.masks = [[1]] ∧
    advanceChain cexCipher cexClient.secrets = [[1]] := by decide

/-! ### C2 -/

/-- C2 counterexample: the claim says every round number put on the wire
is the counter reduced modulo `MaxRounds`.  For the round field of
`GetReqHashes` (sent by `DownloadReqHash`) this fails whatever positive
value `MaxRounds` has: the code sends the raw `reqHashRound`.  At
`MaxRounds = 2` and `reqHashRound = 2` the wire round is 2 while
2 mod 2 = 0. -/
theorem c2_counterexample :
    ¬ ∀ (maxRounds : Nat) (c : Client), 0 < maxRounds →
      (DownloadReqHash c).1.Round = c.reqHashRound % maxRounds := by
  intro h
  exact absurd (h 2 { cexClient with reqHashRound := 2 } (by decide)) (by decide)

/-- C2 amended: only `RequestBlock` reduces its wire round modulo
`MaxRounds`; the round fields sent by `DownloadReqHash`
(`GetReqHashes`), `Upload`/`UploadBlock`, `DownloadBlock`
(`GetUpHashes`) and `DownloadSlot` (`GetResponse`) are the raw,
unbounded counters. -/
theorem c2_wire_rounds (maxRounds : Nat) (c : Client) (slot : Int) (hash : List Nat)
    (files : List (String × List (List Nat × Int))) (readAt : String → Int → List Nat)
    (blockSize : Nat) (reqHashes : List (List Nat))
    (cipherRead : List Nat → Nat → List Nat) (S : Nat)
    (uphashes : List (List Nat)) (response : List Nat)
    (hq : c.dhashes.length < maxRounds) :
    (∃ tr c2, RequestBlock maxRounds c slot hash = some (tr, c2) ∧
      ∀ m, REv.rpc m ∈ tr → m.Request.Round = c.reqRound % maxRounds) ∧
    (DownloadReqHash c).1.Round = c.reqHashRound ∧
    (Upload files readAt blockSize c reqHashes).1.Round = c.reqHashRound ∧
    (Upload files readAt blockSize c reqHashes).2.1.Round = c.upRound ∧
    (DownloadBlock cipherRead S c uphashes hash response).args.Round = c.downRound ∧
    (∀ mm, (DownloadBlock cipherRead S c uphashes hash response).sent = some mm →
      mm.Round = c.downRound) := by
  refine ⟨?_, rfl, rfl, rfl, ?_, ?_⟩
  · refine ⟨_, _, by rw [RequestBlock, if_pos hq], ?_⟩
    intro m hm
    simp only [List.mem_cons, List.not_mem_nil, or_false] at hm
    rcases hm with hm | hm
    · exact absurd hm (by simp)
    · cases hm
      rfl
  · cases hf : findSlot hash uphashes <;> simp [DownloadBlock, hf, DownloadSlot]
  · intro mm hmm
    cases hf : findSlot hash uphashes with
    | none => simp [DownloadBlock, hf] at hmm
    | some slot2 =>
      simp only [DownloadBlock, hf, Option.some.injEq] at hmm
      rw [← hmm]
      rfl

/-- C2 amended, witness at a concrete input. -/
theorem c2_wire_rounds_witness :
    (DownloadReqHash cexClient).1.Round = cexClient.reqHashRound ∧
    cexClient.dhashes.length < 2 :=
  ⟨(c2_wire_rounds 2 cexClient 0 [7] [] (fun _ _ => []) 4 [] cexCipher 1 [[1]] [5]
      (by decide)).2.1,
    by decide⟩

/-! ### C3 -/

/-- C3: for `0 ≤ slot < totalClients` and a 32-byte hash, `RequestBlock`
sends a vector of length `totalClients` whose entry `slot` is the hash
and whose other entries are 32 zero bytes; the trace shows the enqueue
into the FIFO strictly before the RPC, and on success `reqRound` is
incremented and the hash appended to the FIFO. -/
theorem c3_request_vector (maxRounds : Nat) (c : Client) (slot : Int) (hash : List Nat)
    (hq : c.dhashes.length < maxRounds) (h0 : 0 ≤ slot)
    (hM : slot < (c.totalClients : Int)) (hh : hash.length = 32) :
    ∃ cr : ClientRequest,
      RequestBlock maxRounds c slot hash =
        some ([REv.enq hash, REv.rpc cr],
          { c with dhashes := c.dhashes ++ [hash], reqRound := c.reqRound + 1 }) ∧
      cr.Request.Hash.length = c.totalClients ∧
      cr.Request.Hash.getD slot.toNat [] = hash ∧
      (∀ j, j < c.totalClients → (j : Int) ≠ slot →
        cr.Request.Hash.getD j [] = List.replicate 32 0) ∧
      cr.Request.Round = c.reqRound % maxRounds ∧ cr.Id = c.id := by
  refine ⟨⟨⟨(List.range c.totalClients).map
      (fun (i : Nat) => if (i : Int) = slot then hash else List.replicate hash.length 0),
      c.reqRound % maxRounds⟩, c.id⟩,
    by rw [RequestBlock, if_pos hq], ?_, ?_, ?_, rfl, rfl⟩
  · dsimp only
    rw [List.length_map, List.length_range]
  · dsimp only
    have hlt : slot.toNat < c.totalClients := by omega
    rw [getD_range_map _ _ _ _ hlt, if_pos (by omega)]
  · intro j hj hne
    dsimp only
    rw [getD_range_map _ _ _ _ hj, if_neg hne, hh]

/-- C3 witness at a concrete input. -/
theorem c3_request_vector_witness :
    ∃ cr : ClientRequest,
      RequestBlock 2 c3c 1 (List.replicate 32 7) =
        some ([REv.enq (List.replicate 32 7), REv.rpc cr],
          { c3c with dhashes := c3c.dhashes ++ [List.replicate 32 7], reqRound := c3c.reqRound + 1 }) ∧
      cr.Request.Hash.length = c3c.totalClients ∧
      cr.Request.Hash.getD (1 : Int).toNat [] = List.replicate 32 7 ∧
      (∀ j, j < c3c.totalClients → (j : Int) ≠ 1 →
        cr.Request.Hash.getD j [] = List.replicate 32 0) ∧
      cr.Request.Round = c3c.reqRound % 2 ∧ cr.Id = c3c.id :=
  c3_request_vector 2 c3c 1 (List.replicate 32 7) (by decide) (by decide) (by decide)
    (by decide)

/-! ### C10 -/

/-- C10: `RequestBlock` performs no bounds check on `slot`: for any slot
outside `[0, totalClients)` every entry of the sent vector is the
all-zero hash-length buffer, yet the hash is still enqueued and
`reqRound` still incremented. -/
theorem c10_out_of_range_slot (maxRounds : Nat) (c : Client) (slot : Int)
    (hash : List Nat) (hq : c.dhashes.length < maxRounds)
    (hout : slot < 0 ∨ (c.totalClients : Int) ≤ slot) :
    ∃ cr : ClientRequest,
      RequestBlock maxRounds c slot hash =
        some ([REv.enq hash, REv.rpc cr],
          { c with dhashes := c.dhashes ++ [hash], reqRound := c.reqRound + 1 }) ∧
      cr.Request.Hash.length = c.totalClients ∧
      (∀ j, j < c.totalClients →
        cr.Request.Hash.getD j [] = List.replicate hash.length 0) := by
  refine ⟨⟨⟨(List.range c.totalClients).map
      (fun (i : Nat) => if (i : Int) = slot then hash else List.replicate hash.length 0),
      c.reqRound % maxRounds⟩, c.id⟩,
    by rw [RequestBlock, if_pos hq], ?_, ?_⟩
  · dsimp only
    rw [List.length_map, List.length_range]
  · intro j hj
    dsimp only
    rw [getD_range_map _ _ _ _ hj, if_neg (by omega)]

/-- C10 witness at the concrete out-of-range slot -1. -/
theorem c10_out_of_range_slot_witness :
    ∃ cr : ClientRequest,
      RequestBlock 2 c3c (-1) [7] =
        some ([REv.enq [7], REv.rpc cr],
          { c3c with dhashes := c3c.dhashes ++ [[7]], reqRound := c3c.reqRound + 1 }) ∧
      cr.Request.Hash.length = c3c.totalClients ∧
      (∀ j, j < c3c.totalClients →
        cr.Request.Hash.getD j [] = List.replicate ([7] : List Nat).length 0) :=
  c10_out_of_range_slot 2 c3c (-1) [7] (by decide) (by decide)

/-! ### C4 -/

/-- Definition following the words of the spec for the Match step: for
each file, for each requested hash `h`, if the file's table contains
`h`, record its offset and filename and break — so the FIRST requested
hash found in the file's table wins.  Stated only to be compared with
`matchScan`, the loop the code actually runs. -/
def matchScanFirstWins :
    List (String × List (List Nat × Int)) → List (List Nat) → Option (String × Int)
  | [], _ => none
  | (n, t) :: rest, hs =>
    match hs.find? (fun h => (lookupTable t h).isSome) with
    | some h => (lookupTable t h).map (fun o => (n, o))
    | none => matchScanFirstWins rest hs

/-- The match rule `matchScan` actually implements: within a file the
LAST requested hash present in the table determines the offset (the
inner loop has no break); across files the first file with a match
wins. -/
def matchScanLastWins :
    List (String × List (List Nat × Int)) → List (List Nat) → Option (String × Int)
  | [], _ => none
  | (n, t) :: rest, hs =>
    match hs.reverse.find? (fun h => (lookupTable t h).isSome) with
    | some h => (lookupTable t h).map (fun o => (n, o))
    | none => matchScanLastWins rest hs

/-- C4 counterexample: with one file whose table holds offsets 10 for
hash `[1]` and 20 for hash `[2]`, and requested hashes `[[1], [2]]`, the
code picks offset 20 (the last requested hash found in the table), while
the claim's first-match rule picks offset 10. -/
theorem c4_counterexample :
    matchScan [("f", [([1], 10), ([2], 20)])] [[1], [2]] = some ("f", 20) ∧
    matchScanFirstWins [("f", [([1], 10), ([2], 20)])] [[1], [2]] = some ("f", 10) ∧
    matchScan [("f", [([1], 10), ([2], 20)])] [[1], [2]] ≠
      matchScanFirstWins [("f", [([1], 10), ([2], 20)])] [[1], [2]] := by decide

/-- The inner match loop keeps the offset of the last requested hash
found in the table (or its start value when none is found). -/
theorem foldl_lastWins (t : List (List Nat × Int)) :
    ∀ (hs : List (List Nat)) (a : Int),
      hs.foldl
          (fun acc h =>
            match lookupTable t h with
            | some o => o
            | none => acc) a =
        match hs.reverse.find? (fun h => (lookupTable t h).isSome) with
        | some h => (lookupTable t h).getD (-1)
        | none => a := by
  intro hs
  induction hs with
  | nil => intro a; rfl
  | cons h hs ih =>
    intro a
    simp only [List.foldl_cons, List.reverse_cons, List.find?_append, ih]
    cases hfind : hs.reverse.find? (fun h => (lookupTable t h).isSome) with
    | some h2 => rfl
    | none =>
      cases hl : lookupTable t h with
      | some o => simp [List.find?, hl, Option.or]
      | none => simp [List.find?, hl, Option.or]

theorem innerScan_eq (t : List (List Nat × Int)) (hs : List (List Nat)) :
    innerScan t hs =
      match hs.reverse.find? (fun h => (lookupTable t h).isSome) with
      | some h => (lookupTable t h).getD (-1)
      | none => -1 :=
  foldl_lastWins t hs (-1)

/-- Every offset a successful table lookup returns is an offset stored
in the table. -/
theorem lookupTable_mem (t : List (List Nat × Int)) (h : List Nat) (o : Int)
    (hl : lookupTable t h = some o) : ∃ e ∈ t, e.2 = o := by
  unfold lookupTable at hl
  cases hf : t.find? (fun e => e.1 == h) with
  | none => rw [hf] at hl; simp at hl
  | some e =>
    rw [hf] at hl
    simp only [Option.map, Option.some.injEq] at hl
    exact ⟨e, List.mem_of_find?_eq_some hf, hl⟩

theorem matchScan_eq_lastWins :
    ∀ (files : List (String × List (List Nat × Int))) (hs : List (List Nat)),
      (∀ ft ∈ files, ∀ e ∈ ft.2, (0 : Int) ≤ e.2) →
      matchScan files hs = matchScanLastWins files hs := by
  intro files
  induction files with
  | nil => intro hs _; rfl
  | cons ft rest ih =>
    intro hs hpos
    obtain ⟨n, t⟩ := ft
    have hrest : ∀ ft ∈ rest, ∀ e ∈ ft.2, (0 : Int) ≤ e.2 :=
      fun ft hf => hpos ft (by simp [hf])
    simp only [matchScan, matchScanLastWins]
    rw [innerScan_eq]
    cases hfind : hs.reverse.find? (fun h => (lookupTable t h).isSome) with
    | none => simpa using ih hs hrest
    | some h =>
      have hsome : (lookupTable t h).isSome = true := by
        simpa using List.find?_some hfind
      obtain ⟨o, ho⟩ := Option.isSome_iff_exists.mp hsome
      obtain ⟨e, he, heo⟩ := lookupTable_mem t h o ho
      have hoo : (0 : Int) ≤ o := heo ▸ hpos (n, t) (by simp) e he
      dsimp only
      rw [ho]
      simp only [Option.getD_some, Option.map]
      rw [if_pos (by omega)]

/-- C4 amended: `Upload`'s match step scans the files in iteration
order; within each file it checks every requested hash without
stopping, so the LAST requested hash present in the file's table
determines the offset; across files the first file with any match wins
(`matchScanLastWins`); and when no file matches, the uploaded body is
exactly `BlockSize` zero bytes.  Offsets stored in the tables are
byte offsets, hence nonnegative. -/
theorem c4_last_match (files : List (String × List (List Nat × Int)))
    (hs : List (List Nat)) (readAt : String → Int → List Nat) (blockSize : Nat)
    (c : Client) (hpos : ∀ ft ∈ files, ∀ e ∈ ft.2, (0 : Int) ≤ e.2) :
    matchScan files hs = matchScanLastWins files hs ∧
    (matchScan files hs = none →
      (Upload files readAt blockSize c hs).2.1.Block = List.replicate blockSize 0) := by
  refine ⟨matchScan_eq_lastWins files hs hpos, ?_⟩
  intro hnone
  simp [Upload, hnone]

/-- C4 amended, witness at a concrete input. -/
theorem c4_last_match_witness :
    matchScan [("f", [([1], 10), ([2], 20)])] [[2], [1]] =
      matchScanLastWins [("f", [([1], 10), ([2], 20)])] [[2], [1]] :=
  (c4_last_match [("f", [([1], 10), ([2], 20)])] [[2], [1]] (fun _ _ => []) 4 cexClient
      (by decide)).1

/-! ### C5 -/

/-- The onion loop of `UploadBlock` written as a fold over the server
indices equals the layer-by-layer description. -/
theorem foldl_range_onion {Point Scalar : Type} (pmul : Point → Scalar → Point)
    (MarshalPoint : Point → List Nat) (CounterAES : List Nat → List Nat → List Nat)
    (ephKeys : Nat → Point) (secret : Scalar) (body : List Nat) :
    ∀ n : Nat,
      (List.range n).foldl
          (fun b i => CounterAES (MarshalPoint (pmul (ephKeys i) secret)) b) body =
        onionLayers pmul MarshalPoint CounterAES ephKeys secret body n := by
  intro n
  induction n with
  | zero => rfl
  | succ n ih =>
    rw [List.range_succ, List.foldl_append, ih]
    rfl

/-- C5: `UploadBlock` hashes the plaintext body, multi-encrypts that
digest under all `N` server public keys, encrypts `P = g·r` under
`pk_0` only, and onion-encrypts the body starting from the plaintext by
applying `CounterAES` with key `serialize(eph_i · r)` successively for
`i = 0..N−1`; the submitted round is the block's round. -/
theorem c5_upload_structure {Point Scalar : Type} (basePoint : Point)
    (pmul : Point → Scalar → Point) (MarshalPoint : Point → List Nat)
    (Hash : List Nat → List Nat)
    (Encrypt : List Nat → List Point → List Point × List Point)
    (EncryptPoint : Point → Point → Point × Point)
    (CounterAES : List Nat → List Nat → List Nat)
    (nServers : Nat) (ephKeys : Nat → Point) (pks : Nat → Point)
    (secret : Scalar) (body : List Nat) (round : Nat) :
    UploadBlock basePoint pmul MarshalPoint Hash Encrypt EncryptPoint CounterAES
        nServers ephKeys pks secret ⟨body, round⟩ =
      { HC1 := (Encrypt (Hash body) ((List.range nServers).map pks)).1.map MarshalPoint,
        HC2 := (Encrypt (Hash body) ((List.range nServers).map pks)).2.map MarshalPoint,
        DH1 := MarshalPoint (EncryptPoint (pmul basePoint secret) (pks 0)).1,
        DH2 := MarshalPoint (EncryptPoint (pmul basePoint secret) (pks 0)).2,
        BC := onionLayers pmul MarshalPoint CounterAES ephKeys secret body nServers,
        Round := round } := by
  unfold UploadBlock
  rw [foldl_range_onion]

/-! ### C6 -/

/-- C6: on a successful `Download` (a matching slot exists), each of the
2N chains is advanced exactly once: `masks` and `secrets` become their
`advanceChain` images, entry `i` being the next `S` keystream bytes of
the cipher reseeded with the current entry; and the advance is
deterministic in the current chain bytes: any client with the same
chains ends with the same chains, whatever its other fields, the slot
or the response. -/
theorem c6_chain_advance (cipherRead : List Nat → Nat → List Nat) (S : Nat)
    (c : Client) (uphashes : List (List Nat)) (hash response : List Nat) (slot : Nat)
    (hfound : findSlot hash uphashes = some slot)
    (hmask : ∀ mk ∈ c.masks, mk.length = S)
    (hsec : ∀ sk ∈ c.secrets, sk.length = S) :
    ((DownloadBlock cipherRead S c uphashes hash response).post.masks =
        advanceChain cipherRead c.masks ∧
      (DownloadBlock cipherRead S c uphashes hash response).post.secrets =
        advanceChain cipherRead c.secrets) ∧
    (∀ i, (hi : i < c.masks.length) →
      (advanceChain cipherRead c.masks).getD i [] =
        cipherRead (c.masks.getD i []) S) ∧
    (∀ i, (hi : i < c.secrets.length) →
      (advanceChain cipherRead c.secrets).getD i [] =
        cipherRead (c.secrets.getD i []) S) ∧
    (∀ (c2 : Client) (slot2 : Nat) (resp2 : List Nat),
      c2.masks = c.masks → c2.secrets = c.secrets →
      (DownloadSlot cipherRead S c2 slot2 resp2).post.masks =
          advanceChain cipherRead c.masks ∧
        (DownloadSlot cipherRead S c2 slot2 resp2).post.secrets =
          advanceChain cipherRead c.secrets) := by
  refine ⟨⟨?_, ?_⟩, ?_, ?_, ?_⟩
  · simp [DownloadBlock, hfound, DownloadSlot]
  · simp [DownloadBlock, hfound, DownloadSlot]
  · intro i hi
    rw [advanceChain, getD_map_lt _ _ _ _ hi, getD_eq_getElem _ _ _ hi,
      hmask _ (List.getElem_mem hi)]
  · intro i hi
    rw [advanceChain, getD_map_lt _ _ _ _ hi, getD_eq_getElem _ _ _ hi,
      hsec _ (List.getElem_mem hi)]
  · intro c2 slot2 resp2 hm hsv
    constructor
    · simp [DownloadSlot, hm]
    · simp [DownloadSlot, hsv]

/-- C6 witness at a concrete input. -/
theorem c6_chain_advance_witness :
    (DownloadBlock cexCipher 1 cexClient [[2]] [2] [5]).post.masks =
        advanceChain cexCipher cexClient.masks ∧
    (DownloadBlock cexCipher 1 cexClient [[2]] [2] [5]).post.secrets =
        advanceChain cexCipher cexClient.secrets :=
  (c6_chain_advance cexCipher 1 cexClient [[2]] [2] [5] 0 (by decide) (by decide)
      (by decide)).1

/-! ### C7 -/

/-- C7: for `slot < 8·S` the locally built `finalMask` is one-hot with
exactly bit `slot` set; the mask sent to the home server satisfies
`mask_to_home ⊕ Xors(masks except home) ⊕ finalMask = 0`; and the block
returned to the caller is the server response XORed with
`Xors(secrets)`. -/
theorem c7_mask_algebra (cipherRead : List Nat → Nat → List Nat) (S : Nat)
    (c : Client) (slot : Nat) (response : List Nat)
    (hslot : slot < 8 * S) (hmask : ∀ mk ∈ c.masks, mk.length = S)
    (hmy : c.myServer < c.masks.length) :
    (∀ j, j < 8 * S →
      (bitGet (setBit slot true (List.replicate S 0)) j = true ↔ j = slot)) ∧
    xorBytes
        (xorBytes (DownloadSlot cipherRead S c slot response).sent.Mask
          (xors S (c.masks.eraseIdx c.myServer)))
        (setBit slot true (List.replicate S 0)) = List.replicate S 0 ∧
    (DownloadSlot cipherRead S c slot response).block =
      xorBytes response (xors S c.secrets) := by
  refine ⟨fun j hj => bitGet_oneHot S slot hslot j hj, ?_, rfl⟩
  have hF : (setBit slot true (List.replicate S 0)).length = S := by
    rw [length_setBit, List.length_replicate]
  exact mask_algebra S c.masks c.myServer _ hmask hmy hF

/-- C7 witness at a concrete input. -/
theorem c7_mask_algebra_witness :
    (bitGet (setBit 3 true (List.replicate 1 0)) 3 = true ↔ 3 = 3) ∧
    xorBytes
        (xorBytes (DownloadSlot cexCipher 1 c7c 3 [5]).sent.Mask
          (xors 1 (c7c.masks.eraseIdx c7c.myServer)))
        (setBit 3 true (List.replicate 1 0)) = List.replicate 1 0 :=
  ⟨(c7_mask_algebra cexCipher 1 c7c 3 [5] (by decide) (by decide) (by decide)).1 3
      (by decide),
    (c7_mask_algebra cexCipher 1 c7c 3 [5] (by decide) (by decide) (by decide)).2.1⟩

/-! ### C8 -/

/-- Helper: `DownloadBlock` never touches the FIFO or `downRound`. -/
theorem DownloadBlock_preserves (cipherRead : List Nat → Nat → List Nat) (S : Nat)
    (c : Client) (u : List (List Nat)) (h r : List Nat) :
    (DownloadBlock cipherRead S c u h r).post.dhashes = c.dhashes ∧
    (DownloadBlock cipherRead S c u h r).post.downRound = c.downRound := by
  cases hf : findSlot h u <;> simp [DownloadBlock, hf, DownloadSlot]

/-- Helper: `Download` on a non-empty FIFO dequeues exactly the head. -/
theorem Download_dequeue (cipherRead : List Nat → Nat → List Nat) (S : Nat)
    (c : Client) (u : List (List Nat)) (r h : List Nat) (t : List (List Nat))
    (hc : c.dhashes = h :: t) :
    ∃ o, Download cipherRead S c u r = some o ∧ o.hash = h ∧ o.post.dhashes = t := by
  refine ⟨_, by rw [Download, hc], rfl, ?_⟩
  exact (DownloadBlock_preserves cipherRead S { c with dhashes := t } u h r).1

/-- Iterating `RequestBlock` appends the requested hashes to the FIFO in
call order, as long as the capacity bound is respected. -/
theorem runRequests_spec (m : Nat) (slot : Int) :
    ∀ (hs : List (List Nat)) (c : Client), c.dhashes.length + hs.length ≤ m →
      ∃ c2, runRequests m slot c hs = some c2 ∧ c2.dhashes = c.dhashes ++ hs := by
  intro hs
  induction hs with
  | nil => intro c _; exact ⟨c, rfl, by simp⟩
  | cons h t ih =>
    intro c hlen
    have hlen2 : c.dhashes.length + t.length + 1 ≤ m := by
      simp only [List.length_cons] at hlen
      omega
    have hq : c.dhashes.length < m := by omega
    have hstep : RequestBlock m c slot h =
        some ([REv.enq h, REv.rpc ⟨⟨(List.range c.totalClients).map
            (fun (i : Nat) => if (i : Int) = slot then h
              else List.replicate h.length 0), c.reqRound % m⟩, c.id⟩],
          { c with dhashes := c.dhashes ++ [h], reqRound := c.reqRound + 1 }) := by
      rw [RequestBlock, if_pos hq]
    obtain ⟨c2, h1, h2⟩ :=
      ih { c with dhashes := c.dhashes ++ [h], reqRound := c.reqRound + 1 }
        (by simp; omega)
    refine ⟨c2, ?_, by rw [h2]; simp⟩
    simp only [runRequests]
    rw [hstep]
    exact h1

/-- Iterating `Download` dequeues exactly the FIFO contents, in order. -/
theorem runDownloads_spec (cipherRead : List Nat → Nat → List Nat) (S : Nat)
    (ups : Nat → List (List Nat)) (resps : Nat → List Nat) :
    ∀ (hs : List (List Nat)) (c : Client), c.dhashes = hs →
      ∃ c2, runDownloads cipherRead S ups resps hs.length c = some (hs, c2) ∧
        c2.dhashes = [] := by
  intro hs
  induction hs with
  | nil => intro c hc; exact ⟨c, rfl, hc⟩
  | cons h t ih =>
    intro c hc
    obtain ⟨o, ho, hh, ht⟩ :=
      Download_dequeue cipherRead S c (ups c.downRound) (resps c.downRound) h t hc
    obtain ⟨c2, h1, h2⟩ := ih o.post ht
    refine ⟨c2, ?_, h2⟩
    simp only [List.length_cons, runDownloads]
    rw [ho]
    dsimp only
    rw [h1, hh]

/-- C8: exactly one hash is enqueued per `RequestBlock` (appended at the
FIFO tail) and exactly one dequeued per `Download` (removed at the FIFO
head), so starting from an empty FIFO, running `RequestBlock` for a list
of hashes within the capacity bound and then as many `Download` calls
dequeues exactly those hashes in the order they were requested: the k-th
`Download` operates on the k-th requested hash. -/
theorem c8_fifo (m : Nat) (cipherRead : List Nat → Nat → List Nat) (S : Nat)
    (c0 : Client) (slot : Int) (hs : List (List Nat))
    (ups : Nat → List (List Nat)) (resps : Nat → List Nat)
    (hq0 : c0.dhashes = []) (hlen : hs.length ≤ m) :
    (∀ (c : Client) (h : List Nat), c.dhashes.length < m →
      ∃ tr c2, RequestBlock m c slot h = some (tr, c2) ∧
        c2.dhashes = c.dhashes ++ [h]) ∧
    (∀ (c : Client) (h : List Nat) (t u : List (List Nat)) (r : List Nat),
      c.dhashes = h :: t →
      ∃ o, Download cipherRead S c u r = some o ∧ o.hash = h ∧ o.post.dhashes = t) ∧
    (∃ c1 c2, runRequests m slot c0 hs = some c1 ∧ c1.dhashes = hs ∧
      runDownloads cipherRead S ups resps hs.length c1 = some (hs, c2) ∧
      c2.dhashes = []) := by
  refine ⟨?_, ?_, ?_⟩
  · intro c h hq
    exact ⟨_, _, by rw [RequestBlock, if_pos hq], rfl⟩
  · intro c h t u r hc
    exact Download_dequeue cipherRead S c u r h t hc
  · obtain ⟨c1, h1, h2⟩ := runRequests_spec m slot hs c0 (by rw [hq0]; simpa)
    have h2e : c1.dhashes = hs := by rw [h2, hq0]; simp
    obtain ⟨c2, h3, h4⟩ := runDownloads_spec cipherRead S ups resps hs c1 h2e
    exact ⟨c1, c2, h1, h2e, h3, h4⟩

/-- C8 witness at a concrete input. -/
theorem c8_fifo_witness :
    ∃ c1 c2, runRequests 2 0 c3c [[1], [2]] = some c1 ∧ c1.dhashes = [[1], [2]] ∧
      runDownloads cexCipher 1 (fun _ => [[9]]) (fun _ => [0]) 2 c1 =
        some ([[1], [2]], c2) ∧ c2.dhashes = [] :=
  (c8_fifo 2 cexCipher 1 c3c 0 [[1], [2]] (fun _ => [[9]]) (fun _ => [0]) (by decide)
      (by decide)).2.2

/-! ### C9 -/

/-- Under the in-bounds precondition, the comparison loop of
`DownloadBlock` tests exactly whether the requested hash is a byte
prefix of the entry. -/
theorem hashEqAt_iff (hash e : List Nat) (hle : hash.length ≤ e.length) :
    hashEqAt hash e = true ↔ e.take hash.length = hash := by
  rw [hashEqAt, List.all_eq_true]
  constructor
  · intro h
    apply List.ext_getElem
    · simp
      omega
    · intro i h1 h2
      have hi : i < hash.length := h2
      have := h i (by simpa using hi)
      simp only [beq_iff_eq, decide_eq_true_eq] at this
      rw [List.getElem_take]
      rw [getD_eq_getElem _ _ _ hi, getD_eq_getElem _ _ _ (by omega)] at this
      exact this.symm
  · intro h j hj
    have hjl : j < hash.length := by simpa using hj
    simp only [beq_iff_eq, decide_eq_true_eq]
    rw [getD_eq_getElem _ _ _ hjl, getD_eq_getElem _ _ _ (by omega)]
    have := congrArg (fun l => l.getD j 0) h
    simp only at this
    rw [getD_eq_getElem _ _ _ (by simp; omega), getD_eq_getElem _ _ _ hjl,
      List.getElem_take] at this
    exact this.symm

/-- The locate loop returns index `i` exactly when entry `i` matches and
no earlier entry does. -/
theorem findSlot_eq_some_iff (hash : List Nat) :
    ∀ (l : List (List Nat)) (i : Nat),
      findSlot hash l = some i ↔
        (i < l.length ∧ hashEqAt hash (l.getD i []) = true ∧
          ∀ j, j < i → hashEqAt hash (l.getD j []) = false) := by
  intro l
  induction l with
  | nil => intro i; simp [findSlot]
  | cons e t ih =>
    intro i
    by_cases he : hashEqAt hash e
    · rw [findSlot, if_pos he]
      constructor
      · intro h
        cases h
        exact ⟨by simp, by simpa using he, fun j hj => absurd hj (by omega)⟩
      · rintro ⟨hi, hmatch, hnone⟩
        cases i with
        | zero => rfl
        | succ k =>
          have h0 := hnone 0 (by omega)
          rw [List.getD_cons_zero] at h0
          rw [h0] at he
          exact absurd he (by simp)
    · have hef : hashEqAt hash e = false := by simpa using he
      rw [findSlot, if_neg he]
      cases i with
      | zero =>
        have hmap0 : ((findSlot hash t).map (fun n => n + 1) = some 0) ↔ False := by
          cases hft : findSlot hash t <;> simp
        rw [hmap0, false_iff]
        rintro ⟨_, hmatch, _⟩
        rw [List.getD_cons_zero, hef] at hmatch
        exact absurd hmatch (by simp)
      | succ k =>
        have hmapk : ((findSlot hash t).map (fun n => n + 1) = some (k + 1)) ↔
            findSlot hash t = some k := by
          cases hft : findSlot hash t <;> simp
        rw [hmapk, ih k]
        constructor
        · rintro ⟨hk, hmatch, hnone⟩
          refine ⟨by simp; omega, by simpa [List.getD_cons_succ] using hmatch, ?_⟩
          intro j hj
          cases j with
          | zero => rw [List.getD_cons_zero]; exact hef
          | succ j2 =>
            rw [List.getD_cons_succ]
            exact hnone j2 (by omega)
        · rintro ⟨hk, hmatch, hnone⟩
          refine ⟨by simp at hk; omega, by simpa [List.getD_cons_succ] using hmatch, ?_⟩
          intro j hj
          have hj2 := hnone (j + 1) (by omega)
          rw [List.getD_cons_succ] at hj2
          exact hj2

/-- C9: `DownloadBlock`'s locate step returns the smallest index whose
entry has the requested hash as a byte prefix (only positions
`0 .. len(hash)-1` are compared), under the precondition that every
returned entry is at least as long as the hash (otherwise the Go code
indexes out of bounds); in particular a zero-length requested hash
matches slot 0 whenever the returned list is non-empty. -/
theorem c9_locate (hash : List Nat) (uphashes : List (List Nat))
    (hlen : ∀ e ∈ uphashes, hash.length ≤ e.length) :
    (∀ i, findSlot hash uphashes = some i ↔
      (i < uphashes.length ∧ (uphashes.getD i []).take hash.length = hash ∧
        ∀ j, j < i → (uphashes.getD j []).take hash.length ≠ hash)) ∧
    (hash = [] → uphashes ≠ [] → findSlot hash uphashes = some 0) := by
  constructor
  · intro i
    rw [findSlot_eq_some_iff]
    have hmem : ∀ k, k < uphashes.length → uphashes.getD k [] ∈ uphashes := by
      intro k hk
      rw [getD_eq_getElem _ _ _ hk]
      exact List.getElem_mem hk
    constructor
    · rintro ⟨hi, hm, hn⟩
      refine ⟨hi, (hashEqAt_iff _ _ (hlen _ (hmem i hi))).mp hm, ?_⟩
      intro j hj hcontra
      have hji : j < uphashes.length := by omega
      have htrue := (hashEqAt_iff _ _ (hlen _ (hmem j hji))).mpr hcontra
      rw [hn j hj] at htrue
      exact absurd htrue (by simp)
    · rintro ⟨hi, hm, hn⟩
      refine ⟨hi, (hashEqAt_iff _ _ (hlen _ (hmem i hi))).mpr hm, ?_⟩
      intro j hj
      have hji : j < uphashes.length := by omega
      cases hcase : hashEqAt hash (uphashes.getD j []) with
      | false => rfl
      | true =>
        exact absurd ((hashEqAt_iff _ _ (hlen _ (hmem j hji))).mp hcase) (hn j hj)
  · intro hh hne
    cases uphashes with
    | nil => exact absurd rfl hne
    | cons e t =>
      subst hh
      rw [findSlot, if_pos (by rfl)]

/-- C9 witness at a concrete input. -/
theorem c9_locate_witness :
    findSlot [] [[5]] = some 0 ∧
    (findSlot [2, 9] [[2, 9, 4], [3, 3]] = some 0 ↔
      (0 < 2 ∧ (([[2, 9, 4], [3, 3]] : List (List Nat)).getD 0 []).take 2 = [2, 9] ∧
        ∀ j, j < 0 →
          (([[2, 9, 4], [3, 3]] : List (List Nat)).getD j []).take 2 ≠ [2, 9])) :=
  ⟨(c9_locate [] [[5]] (by decide)).2 rfl (by decide),
    (c9_locate [2, 9] [[2, 9, 4], [3, 3]] (by decide)).1 0⟩

end Riffle
